import Mathlib

/-!
Shallow embedding of the ESC/P command tokenizer of `tools/escp_parser.py`
(`ESCPParser.parse_packet` and the aggregate statistics it maintains).

Buffers are lists of byte values (`List Nat`); the command table
`ESCP_COMMANDS` is an association list from byte keys to description
strings; Python's `bytes.hex()` rendering of the `command` and
`parameters` fields is modelled by the byte lists themselves (the
rendering is injective on byte strings).  The `while` loop of
`parse_packet` is embedded as a step function `parseStep` (one loop
body iteration: the recorded event plus the new cursor) iterated by a
fuel-indexed driver `parseAux`; `data.length` fuel is always enough
because every branch advances the cursor.
-/

/-- Escape marker byte `ESC = b'\x1b'` that starts ESC/P commands. -/
def ESC : Nat := 27

/-- The command table `ESCP_COMMANDS` of `escp_parser.py`: byte-string
keys mapped to human-readable descriptions. -/
def ESCP_COMMANDS : List (List Nat × String) :=
  [([27, 64], "Initialize printer"),
   ([27, 40, 71], "Select graphics mode"),
   ([27, 40, 85], "Set unit"),
   ([27, 40, 75], "Set color selection"),
   ([27, 40, 105], "Set ink density/type"),
   ([27, 40, 99], "Set page format"),
   ([27, 40, 67], "Set page length"),
   ([27, 40, 86], "Set absolute vertical position"),
   ([27, 40, 118], "Set relative vertical position"),
   ([27, 40, 72], "Set horizontal spacing"),
   ([27, 36], "Set absolute horizontal position"),
   ([27, 92], "Set relative horizontal position"),
   ([27, 40, 82], "Select print color"),
   ([27, 40, 114], "Select color tables"),
   ([27, 46], "Graphics dot control"),
   ([27, 42], "Select bit image mode"),
   ([27, 75], "Select single-density graphics"),
   ([27, 76], "Select double-density graphics"),
   ([27, 89], "Select high-speed double-density graphics"),
   ([27, 90], "Select quadruple-density graphics")]

/-- Table membership and retrieval: `cmd in ESCP_COMMANDS` together with
`ESCP_COMMANDS[cmd]` (dict keys are unique, so first match suffices). -/
def cmdLookup : List (List Nat × String) → List Nat → Option String
  | [], _ => none
  | (k, v) :: t, c => if k = c then some v else cmdLookup t c

/-- Python slicing `data[i:i+n]`. -/
def byteSlice (data : List Nat) (i n : Nat) : List Nat :=
  (data.drop i).take n

/-- One entry of the `parsed_commands` list built by `parse_packet`. -/
structure DecodedCommand where
  position : Nat
  command : List Nat
  description : String
  parameters : List Nat
deriving DecidableEq

/-- Inner loop `for cmd_len in range(5, 1, -1)`: try each candidate
length in the given order; the first length whose sliced bytes are in
bounds and hit the table wins. -/
def tryLens (tbl : List (List Nat × String)) (data : List Nat) (i : Nat) :
    List Nat → Option (Nat × String)
  | [] => none
  | L :: rest =>
    if i + L ≤ data.length then
      match cmdLookup tbl (byteSlice data i L) with
      | some d => some (L, d)
      | none => tryLens tbl data i rest
    else tryLens tbl data i rest

/-- Parameter length inferred after a match of length `L` at cursor `i`:
zero unless `cmd_len >= 3` and `i + cmd_len + 1 < len(data)`, otherwise
`data[i+cmd_len] + data[i+cmd_len+1] * 256`, where the high byte is
counted only when `i + cmd_len + 2 < len(data)`. -/
def paramLen (data : List Nat) (i L : Nat) : Nat :=
  if 3 ≤ L ∧ i + L + 1 < data.length then
    data.getD (i + L) 0 +
      (if i + L + 2 < data.length then data.getD (i + L + 1) 0 * 256 else 0)
  else 0

/-- One observable outcome of a loop-body iteration: a decoded command
appended to `parsed_commands` (and tallied in `commands_found`), an
unknown escape sequence added to `unknown_commands`, or a skipped
non-escape byte. -/
inductive StepEvent where
  | cmd (c : DecodedCommand)
  | unknown (pos : Nat) (bytes : List Nat)
  | skip (pos : Nat)
deriving DecidableEq

/-- Cursor position at which an event was produced. -/
def eventPos : StepEvent → Nat
  | .cmd c => c.position
  | .unknown p _ => p
  | .skip p => p

/-- One iteration of the `while i < len(data)` loop body of
`parse_packet`: the event recorded at cursor `i` and the new cursor. -/
def parseStep (tbl : List (List Nat × String)) (data : List Nat) (i : Nat) :
    StepEvent × Nat :=
  if byteSlice data i 1 = [ESC] then
    match tryLens tbl data i [5, 4, 3, 2] with
    | some (L, d) =>
      (StepEvent.cmd
        ⟨i, byteSlice data i L, d,
          if 0 < paramLen data i L ∧
              i + L + 2 + paramLen data i L ≤ data.length then
            byteSlice data (i + L + 2) (paramLen data i L)
          else []⟩,
       i + L + (if 0 < paramLen data i L then paramLen data i L + 2 else 0))
    | none =>
      if i + 2 ≤ data.length then
        match cmdLookup tbl (byteSlice data i 2) with
        | some d => (StepEvent.cmd ⟨i, byteSlice data i 2, d, []⟩, i + 2)
        | none => (StepEvent.unknown i (byteSlice data i 2), i + 1)
      else (StepEvent.unknown i (byteSlice data i 2), i + 1)
  else (StepEvent.skip i, i + 1)

/-- The `while` loop with explicit fuel; `data.length - i` fuel always
suffices (see `parseAux_fuel`), so `parse_packet` runs it with
`data.length`. -/
def parseAux (tbl : List (List Nat × String)) (data : List Nat) :
    Nat → Nat → List StepEvent
  | 0, _ => []
  | fuel + 1, i =>
    if i < data.length then
      (parseStep tbl data i).1 ::
        parseAux tbl data fuel (parseStep tbl data i).2
    else []

/-- Events produced by the loop when started at cursor `i`. -/
def evFrom (tbl : List (List Nat × String)) (data : List Nat) (i : Nat) :
    List StepEvent :=
  parseAux tbl data (data.length - i) i

/-- All events of one `parse_packet` call on `data`. -/
def parseEvents (tbl : List (List Nat × String)) (data : List Nat) :
    List StepEvent :=
  parseAux tbl data data.length 0

/-- Decoded commands among a list of events, in order. -/
def cmdsOf (events : List StepEvent) : List DecodedCommand :=
  events.filterMap fun e =>
    match e with
    | .cmd c => some c
    | _ => none

/-- Unknown escape sequences among a list of events, with the offsets at
which `unknown_commands.add` fired. -/
def unknownsOf (events : List StepEvent) : List (Nat × List Nat) :=
  events.filterMap fun e =>
    match e with
    | .unknown p b => some (p, b)
    | _ => none

/-- The `parsed_commands` list returned by one `parse_packet` call. -/
def parse_packet (tbl : List (List Nat × String)) (data : List Nat) :
    List DecodedCommand :=
  cmdsOf (parseEvents tbl data)

/-- The unknown sequences recorded by one `parse_packet` call. -/
def unknownRecords (tbl : List (List Nat × String)) (data : List Nat) :
    List (Nat × List Nat) :=
  unknownsOf (parseEvents tbl data)

/-- Cursor values visited by the main loop of one `parse_packet` call. -/
inductive Reaches (tbl : List (List Nat × String)) (data : List Nat) :
    Nat → Prop where
  | zero : Reaches tbl data 0
  | step {i : Nat} : Reaches tbl data i → i < data.length →
      Reaches tbl data (parseStep tbl data i).2

/-- Byte spans consumed by the loop iteration at cursor `i`, as
half-open intervals: the matched bytes of a command, then (when a
positive parameter length was inferred) the parameter region consisting
of the two length bytes plus the declared parameter bytes; unknown and
skipped bytes give single-byte spans. -/
def stepSpans (tbl : List (List Nat × String)) (data : List Nat) (i : Nat) :
    List (Nat × Nat) :=
  match (parseStep tbl data i).1 with
  | .cmd c =>
    if i + c.command.length < (parseStep tbl data i).2 then
      [(i, i + c.command.length),
       (i + c.command.length, (parseStep tbl data i).2)]
    else [(i, i + c.command.length)]
  | _ => [(i, (parseStep tbl data i).2)]

/-- Spans consumed by the loop from cursor `i`, with fuel. -/
def spansAux (tbl : List (List Nat × String)) (data : List Nat) :
    Nat → Nat → List (Nat × Nat)
  | 0, _ => []
  | fuel + 1, i =>
    if i < data.length then
      stepSpans tbl data i ++ spansAux tbl data fuel (parseStep tbl data i).2
    else []

/-- All spans consumed by one `parse_packet` call on `data`. -/
def spans (tbl : List (List Nat × String)) (data : List Nat) :
    List (Nat × Nat) :=
  spansAux tbl data data.length 0

/-- Bounds-checked variant of `paramLen`: the two raw subscripts
`data[i+cmd_len]` and `data[i+cmd_len+1]` return `none` (an IndexError)
when out of bounds instead of a default. -/
def paramLenE (data : List Nat) (i L : Nat) : Option Nat :=
  if 3 ≤ L ∧ i + L + 1 < data.length then
    match data[i + L]?, data[i + L + 1]? with
    | some lo, some hi =>
      some (lo + (if i + L + 2 < data.length then hi * 256 else 0))
    | _, _ => none
  else some 0

/-- Bounds-checked loop body: `none` models a raised IndexError. -/
def parseStepE (tbl : List (List Nat × String)) (data : List Nat) (i : Nat) :
    Option (StepEvent × Nat) :=
  if byteSlice data i 1 = [ESC] then
    match tryLens tbl data i [5, 4, 3, 2] with
    | some (L, d) =>
      match paramLenE data i L with
      | none => none
      | some pl =>
        some (StepEvent.cmd
          ⟨i, byteSlice data i L, d,
            if 0 < pl ∧ i + L + 2 + pl ≤ data.length then
              byteSlice data (i + L + 2) pl
            else []⟩,
         i + L + (if 0 < pl then pl + 2 else 0))
    | none =>
      if i + 2 ≤ data.length then
        match cmdLookup tbl (byteSlice data i 2) with
        | some d => some (StepEvent.cmd ⟨i, byteSlice data i 2, d, []⟩, i + 2)
        | none => some (StepEvent.unknown i (byteSlice data i 2), i + 1)
      else some (StepEvent.unknown i (byteSlice data i 2), i + 1)
  else some (StepEvent.skip i, i + 1)

/-- Bounds-checked loop: `none` models an exception escaping the call. -/
def parseAuxE (tbl : List (List Nat × String)) (data : List Nat) :
    Nat → Nat → Option (List StepEvent)
  | 0, _ => some []
  | fuel + 1, i =>
    if i < data.length then
      match parseStepE tbl data i with
      | none => none
      | some s =>
        match parseAuxE tbl data fuel s.2 with
        | none => none
        | some rest => some (s.1 :: rest)
    else some []

/-- Bounds-checked run of one `parse_packet` call. -/
def parseEventsE (tbl : List (List Nat × String)) (data : List Nat) :
    Option (List StepEvent) :=
  parseAuxE tbl data data.length 0

/-- Bounds-checked `parse_packet`. -/
def parse_packetE (tbl : List (List Nat × String)) (data : List Nat) :
    Option (List DecodedCommand) :=
  (parseEventsE tbl data).map cmdsOf

/-- Aggregator state of an `ESCPParser` instance: the tally
`commands_found` (a defaultdict of counts, as a total function) and the
set `unknown_commands` (as its membership function). -/
structure AggState where
  commands_found : List Nat → Nat
  unknown_commands : List Nat → Bool

attribute [ext] AggState

/-- Effect of one event on the aggregator state:
`self.commands_found[cmd] += 1` on a match and
`self.unknown_commands.add(unknown_cmd)` on an unknown sequence. -/
def applyEvent (st : AggState) : StepEvent → AggState
  | .cmd c =>
    ⟨fun k => if k = c.command then st.commands_found k + 1
              else st.commands_found k,
     st.unknown_commands⟩
  | .unknown _ b =>
    ⟨st.commands_found,
     fun k => if k = b then true else st.unknown_commands k⟩
  | .skip _ => st

/-- Aggregator effect of one `parse_packet` call on one buffer. -/
def feedBuf (tbl : List (List Nat × String)) (st : AggState)
    (data : List Nat) : AggState :=
  (parseEvents tbl data).foldl applyEvent st

/-- Freshly constructed `ESCPParser` state: empty tally, empty set. -/
def initAgg : AggState :=
  ⟨fun _ => 0, fun _ => false⟩

/-- Aggregator state after feeding a list of buffers, in order, to one
`ESCPParser` instance. -/
def runAgg (tbl : List (List Nat × String)) (bufs : List (List Nat)) :
    AggState :=
  bufs.foldl (feedBuf tbl) initAgg

/-- Matches contributed by one buffer to the tally at key `k`. -/
def bufCount (tbl : List (List Nat × String)) (data : List Nat)
    (k : List Nat) : Nat :=
  (parseEvents tbl data).countP fun e =>
    match e with
    | .cmd c => decide (c.command = k)
    | _ => false

/-- Whether one buffer contributes key `k` to `unknown_commands`. -/
def bufUnknown (tbl : List (List Nat × String)) (data : List Nat)
    (k : List Nat) : Bool :=
  (parseEvents tbl data).any fun e =>
    match e with
    | .unknown _ b => decide (b = k)
    | _ => false

/-! Basic facts about slices and the command table. -/

theorem byteSlice_length {data : List Nat} {i n : Nat}
    (h : i + n ≤ data.length) : (byteSlice data i n).length = n := by
  simp [byteSlice]
  omega

theorem byteSlice_take {data : List Nat} {i m n : Nat} (h : m ≤ n) :
    (byteSlice data i n).take m = byteSlice data i m := by
  simp [byteSlice, List.take_take, Nat.min_eq_left h]

theorem cmdLookup_mem {tbl : List (List Nat × String)} {k : List Nat}
    {d : String} (h : cmdLookup tbl k = some d) : (k, d) ∈ tbl := by
  induction tbl with
  | nil => simp [cmdLookup] at h
  | cons p t ih =>
    obtain ⟨k', v⟩ := p
    by_cases hk : k' = k
    · subst hk
      simp [cmdLookup] at h
      simp [h]
    · simp [cmdLookup, hk] at h
      exact List.mem_cons_of_mem _ (ih h)

theorem escp_key_facts {k : List Nat} {d : String}
    (h : (k, d) ∈ ESCP_COMMANDS) : k.length ≤ 3 ∧ k.take 1 = [ESC] := by
  simp only [ESCP_COMMANDS, List.mem_cons, List.not_mem_nil, or_false,
    Prod.mk.injEq] at h
  rcases h with ⟨rfl, -⟩ | ⟨rfl, -⟩ | ⟨rfl, -⟩ | ⟨rfl, -⟩ | ⟨rfl, -⟩ |
    ⟨rfl, -⟩ | ⟨rfl, -⟩ | ⟨rfl, -⟩ | ⟨rfl, -⟩ | ⟨rfl, -⟩ | ⟨rfl, -⟩ |
    ⟨rfl, -⟩ | ⟨rfl, -⟩ | ⟨rfl, -⟩ | ⟨rfl, -⟩ | ⟨rfl, -⟩ | ⟨rfl, -⟩ |
    ⟨rfl, -⟩ | ⟨rfl, -⟩ | ⟨rfl, -⟩ <;> decide

theorem cmdLookup_escp_length {k : List Nat} {d : String}
    (h : cmdLookup ESCP_COMMANDS k = some d) : k.length ≤ 3 :=
  (escp_key_facts (cmdLookup_mem h)).1

/-! Facts about the length-descending matching loop. -/

theorem tryLens_mem {tbl : List (List Nat × String)} {data : List Nat}
    {i : Nat} {Ls : List Nat} {L : Nat} {d : String}
    (h : tryLens tbl data i Ls = some (L, d)) :
    L ∈ Ls ∧ i + L ≤ data.length ∧
      cmdLookup tbl (byteSlice data i L) = some d := by
  induction Ls with
  | nil => simp [tryLens] at h
  | cons L0 rest ih =>
    rw [tryLens] at h
    by_cases hb : i + L0 ≤ data.length
    · rw [if_pos hb] at h
      cases hl : cmdLookup tbl (byteSlice data i L0) with
      | some d0 =>
        rw [hl] at h
        simp at h
        obtain ⟨rfl, rfl⟩ := h
        exact ⟨List.mem_cons_self _ _, hb, hl⟩
      | none =>
        rw [hl] at h
        obtain ⟨h1, h2, h3⟩ := ih h
        exact ⟨List.mem_cons_of_mem _ h1, h2, h3⟩
    · rw [if_neg hb] at h
      obtain ⟨h1, h2, h3⟩ := ih h
      exact ⟨List.mem_cons_of_mem _ h1, h2, h3⟩

theorem tryLens_first_wins {tbl : List (List Nat × String)}
    {data : List Nat} {i : Nat} {Ls : List Nat} {L : Nat} {d : String}
    (h : tryLens tbl data i Ls = some (L, d))
    (hs : Ls.Pairwise (fun a b => b < a)) :
    ∀ L' ∈ Ls, L < L' → i + L' ≤ data.length →
      cmdLookup tbl (byteSlice data i L') = none := by
  induction Ls with
  | nil => simp
  | cons L0 rest ih =>
    intro L' hL' hlt hb'
    rw [tryLens] at h
    rw [List.pairwise_cons] at hs
    rcases List.mem_cons.mp hL' with rfl | hL'
    · by_cases hb : i + L' ≤ data.length
      · rw [if_pos hb] at h
        cases hl : cmdLookup tbl (byteSlice data i L') with
        | some d0 =>
          rw [hl] at h
          simp at h
          omega
        | none => rfl
      · exact absurd hb' hb
    · by_cases hb : i + L0 ≤ data.length
      · rw [if_pos hb] at h
        cases hl : cmdLookup tbl (byteSlice data i L0) with
        | some d0 =>
          rw [hl] at h
          simp at h
          have := hs.1 L' hL'
          omega
        | none =>
          rw [hl] at h
          exact ih h hs.2 L' hL' hlt hb'
      · rw [if_neg hb] at h
        exact ih h hs.2 L' hL' hlt hb'

theorem tryLens_escp_hit3 {data : List Nat} {i : Nat} {d : String}
    (hb : i + 3 ≤ data.length)
    (hl : cmdLookup ESCP_COMMANDS (byteSlice data i 3) = some d) :
    tryLens ESCP_COMMANDS data i [5, 4, 3, 2] = some (3, d) := by
  have h5 : i + 5 ≤ data.length →
      cmdLookup ESCP_COMMANDS (byteSlice data i 5) = none := by
    intro h
    cases hx : cmdLookup ESCP_COMMANDS (byteSlice data i 5) with
    | none => rfl
    | some d' =>
      have := cmdLookup_escp_length hx
      rw [byteSlice_length h] at this
      omega
  have h4 : i + 4 ≤ data.length →
      cmdLookup ESCP_COMMANDS (byteSlice data i 4) = none := by
    intro h
    cases hx : cmdLookup ESCP_COMMANDS (byteSlice data i 4) with
    | none => rfl
    | some d' =>
      have := cmdLookup_escp_length hx
      rw [byteSlice_length h] at this
      omega
  rw [tryLens]
  by_cases hb5 : i + 5 ≤ data.length
  · rw [if_pos hb5, h5 hb5, tryLens]
    by_cases hb4 : i + 4 ≤ data.length
    · rw [if_pos hb4, h4 hb4, tryLens, if_pos hb, hl]
    · rw [if_neg hb4, tryLens, if_pos hb, hl]
  · rw [if_neg hb5, tryLens]
    by_cases hb4 : i + 4 ≤ data.length
    · rw [if_pos hb4, h4 hb4, tryLens, if_pos hb, hl]
    · rw [if_neg hb4, tryLens, if_pos hb, hl]

/-! Facts about one loop iteration. -/

theorem parseStep_pos (tbl : List (List Nat × String)) (data : List Nat)
    (i : Nat) : eventPos (parseStep tbl data i).1 = i := by
  rw [parseStep]
  by_cases he : byteSlice data i 1 = [ESC]
  · rw [if_pos he]
    cases ht : tryLens tbl data i [5, 4, 3, 2] with
    | some p => obtain ⟨L, d⟩ := p; rfl
    | none =>
      by_cases hb : i + 2 ≤ data.length
      · rw [if_pos hb]
        cases hl : cmdLookup tbl (byteSlice data i 2) <;> rfl
      · rw [if_neg hb]
        rfl
  · rw [if_neg he]
    rfl

theorem parseStep_advance (tbl : List (List Nat × String)) (data : List Nat)
    (i : Nat) : i + 1 ≤ (parseStep tbl data i).2 := by
  rw [parseStep]
  by_cases he : byteSlice data i 1 = [ESC]
  · rw [if_pos he]
    cases ht : tryLens tbl data i [5, 4, 3, 2] with
    | some p =>
      obtain ⟨L, d⟩ := p
      have hL : L ∈ [5, 4, 3, 2] := (tryLens_mem ht).1
      have h2 : 2 ≤ L := by
        simp only [List.mem_cons, List.not_mem_nil, or_false] at hL
        rcases hL with rfl | rfl | rfl | rfl <;> omega
      dsimp only
      split <;> omega
    | none =>
      by_cases hb : i + 2 ≤ data.length
      · rw [if_pos hb]
        cases hl : cmdLookup tbl (byteSlice data i 2) <;> simp
      · rw [if_neg hb]
  · rw [if_neg he]

/-! Facts about the fuelled loop. -/

theorem parseAux_nil {tbl : List (List Nat × String)} {data : List Nat}
    {f i : Nat} (h : data.length ≤ i) : parseAux tbl data f i = [] := by
  cases f with
  | zero => rfl
  | succ f => rw [parseAux, if_neg (by omega)]

theorem parseAux_fuel {tbl : List (List Nat × String)} {data : List Nat} :
    ∀ (f i : Nat), data.length - i ≤ f →
      parseAux tbl data f i = evFrom tbl data i := by
  intro f
  induction f using Nat.strong_induction_on with
  | _ f ih =>
    intro i h
    by_cases hi : i < data.length
    · obtain ⟨m, rfl⟩ : ∃ m, f = m + 1 := ⟨f - 1, by omega⟩
      obtain ⟨k, hk⟩ : ∃ k, data.length - i = k + 1 :=
        ⟨data.length - i - 1, by omega⟩
      have hadv := parseStep_advance tbl data i
      rw [parseAux, if_pos hi, evFrom, hk, parseAux, if_pos hi]
      rw [ih m (by omega) (parseStep tbl data i).2 (by omega),
        ih k (by omega) (parseStep tbl data i).2 (by omega)]
    · rw [parseAux_nil (by omega), evFrom, parseAux_nil (by omega)]

theorem evFrom_nil {tbl : List (List Nat × String)} {data : List Nat}
    {i : Nat} (h : data.length ≤ i) : evFrom tbl data i = [] :=
  parseAux_nil h

theorem evFrom_unfold {tbl : List (List Nat × String)} {data : List Nat}
    {i : Nat} (h : i < data.length) :
    evFrom tbl data i =
      (parseStep tbl data i).1 :: evFrom tbl data (parseStep tbl data i).2 := by
  rw [evFrom]
  obtain ⟨k, hk⟩ : ∃ k, data.length - i = k + 1 := ⟨data.length - i - 1, by omega⟩
  rw [hk, parseAux, if_pos h]
  have hadv := parseStep_advance tbl data i
  rw [parseAux_fuel k (parseStep tbl data i).2 (by omega)]

theorem parseEvents_eq_evFrom (tbl : List (List Nat × String))
    (data : List Nat) : parseEvents tbl data = evFrom tbl data 0 := by
  rw [parseEvents, evFrom, Nat.sub_zero]

theorem parseAux_pos_ge {tbl : List (List Nat × String)} {data : List Nat} :
    ∀ {f i : Nat} {e : StepEvent}, e ∈ parseAux tbl data f i →
      i ≤ eventPos e := by
  intro f
  induction f with
  | zero => intro i e h; simp [parseAux] at h
  | succ f ih =>
    intro i e h
    rw [parseAux] at h
    by_cases hi : i < data.length
    · rw [if_pos hi] at h
      rcases List.mem_cons.mp h with rfl | h
      · rw [parseStep_pos]
      · have := ih h
        have := parseStep_advance tbl data i
        omega
    · rw [if_neg hi] at h
      simp at h

theorem evFrom_pos_ge {tbl : List (List Nat × String)} {data : List Nat}
    {i : Nat} {e : StepEvent} (h : e ∈ evFrom tbl data i) :
    i ≤ eventPos e :=
  parseAux_pos_ge h

/-- A reached cursor splits the event trace: everything before it was
produced at strictly smaller positions. -/
theorem reaches_split {tbl : List (List Nat × String)} {data : List Nat}
    {i : Nat} (h : Reaches tbl data i) :
    ∃ pre, parseEvents tbl data = pre ++ evFrom tbl data i ∧
      ∀ e ∈ pre, eventPos e < i := by
  induction h with
  | zero =>
    exact ⟨[], by rw [parseEvents_eq_evFrom, List.nil_append], by simp⟩
  | step hr hi ih =>
    rename_i j
    obtain ⟨pre, hpre, hlt⟩ := ih
    refine ⟨pre ++ [(parseStep tbl data j).1], ?_, ?_⟩
    · rw [hpre, evFrom_unfold hi, List.append_assoc, List.singleton_append]
    · intro e he
      have hadv := parseStep_advance tbl data j
      rcases List.mem_append.mp he with he | he
      · have := hlt e he
        omega
      · rcases List.mem_singleton.mp he with rfl
        rw [parseStep_pos]
        omega

/-! Facts about the projections of the event trace. -/

theorem mem_cmdsOf {l : List StepEvent} {c : DecodedCommand} :
    c ∈ cmdsOf l ↔ StepEvent.cmd c ∈ l := by
  rw [cmdsOf, List.mem_filterMap]
  constructor
  · rintro ⟨e, he, hm⟩
    cases e with
    | cmd c' => simp at hm; subst hm; exact he
    | unknown p b => simp at hm
    | skip p => simp at hm
  · intro h
    exact ⟨StepEvent.cmd c, h, rfl⟩

theorem cmdsOf_append (l₁ l₂ : List StepEvent) :
    cmdsOf (l₁ ++ l₂) = cmdsOf l₁ ++ cmdsOf l₂ := by
  rw [cmdsOf, cmdsOf, cmdsOf, List.filterMap_append]

theorem cmdsOf_pos_sublist (l : List StepEvent) :
    ((cmdsOf l).map DecodedCommand.position).Sublist (l.map eventPos) := by
  induction l with
  | nil => simp [cmdsOf]
  | cons e t ih =>
    cases e with
    | cmd c =>
      rw [cmdsOf] at ih ⊢
      simp only [List.filterMap_cons, List.map_cons]
      exact List.Sublist.cons₂ _ ih
    | unknown p b =>
      rw [cmdsOf] at ih ⊢
      simp only [List.filterMap_cons, List.map_cons]
      exact List.Sublist.cons _ ih
    | skip p =>
      rw [cmdsOf] at ih ⊢
      simp only [List.filterMap_cons, List.map_cons]
      exact List.Sublist.cons _ ih

theorem parseAux_pairwise {tbl : List (List Nat × String)}
    {data : List Nat} : ∀ (f i : Nat),
    (parseAux tbl data f i).Pairwise (fun a b => eventPos a < eventPos b) := by
  intro f
  induction f with
  | zero => intro i; simp [parseAux]
  | succ f ih =>
    intro i
    rw [parseAux]
    by_cases hi : i < data.length
    · rw [if_pos hi]
      refine List.Pairwise.cons ?_ (ih _)
      intro e he
      have h1 := parseAux_pos_ge he
      have h2 := parseStep_advance tbl data i
      rw [parseStep_pos]
      omega
    · rw [if_neg hi]
      simp

/-! Facts about commands produced by one iteration. -/

theorem parseStep_cmd_facts {tbl : List (List Nat × String)}
    {data : List Nat} {i : Nat} {c : DecodedCommand}
    (h : (parseStep tbl data i).1 = StepEvent.cmd c) :
    c.position = i ∧ c.command = byteSlice data i c.command.length ∧
      i + c.command.length ≤ (parseStep tbl data i).2 := by
  rw [parseStep] at h ⊢
  by_cases he : byteSlice data i 1 = [ESC]
  · rw [if_pos he] at h ⊢
    cases ht : tryLens tbl data i [5, 4, 3, 2] with
    | some p =>
      obtain ⟨L, d⟩ := p
      have hb : i + L ≤ data.length := (tryLens_mem ht).2.1
      rw [ht] at h
      dsimp only at h ⊢
      injection h with h
      subst h
      refine ⟨rfl, ?_, ?_⟩
      · dsimp only
        rw [byteSlice_length hb]
      · dsimp only
        rw [byteSlice_length hb]
        split <;> omega
    | none =>
      rw [ht] at h
      dsimp only at h ⊢
      by_cases hb : i + 2 ≤ data.length
      · rw [if_pos hb] at h ⊢
        cases hl : cmdLookup tbl (byteSlice data i 2) with
        | some d =>
          rw [hl] at h
          dsimp only at h ⊢
          injection h with h
          subst h
          refine ⟨rfl, ?_, ?_⟩
          · dsimp only
            rw [byteSlice_length hb]
          · dsimp only
            rw [byteSlice_length hb]
        | none =>
          rw [hl] at h
          simp at h
      · rw [if_neg hb] at h
        simp at h
  · rw [if_neg he] at h
    simp at h

/-! Facts about consumed spans. -/

theorem stepSpans_countP (tbl : List (List Nat × String)) (data : List Nat)
    (i j : Nat) :
    ((stepSpans tbl data i).countP fun p => decide (p.1 ≤ j ∧ j < p.2)) =
      if i ≤ j ∧ j < (parseStep tbl data i).2 then 1 else 0 := by
  rw [stepSpans]
  cases he : (parseStep tbl data i).1 with
  | cmd c =>
    have h3 := (parseStep_cmd_facts he).2.2
    dsimp only
    by_cases hM : i + c.command.length < (parseStep tbl data i).2
    · rw [if_pos hM]
      simp only [List.countP_cons, List.countP_nil, decide_eq_true_eq]
      split_ifs <;> omega
    · rw [if_neg hM]
      simp only [List.countP_cons, List.countP_nil, decide_eq_true_eq]
      split_ifs <;> omega
  | unknown p b =>
    dsimp only
    simp only [List.countP_cons, List.countP_nil, decide_eq_true_eq]
    split_ifs <;> omega
  | skip p =>
    dsimp only
    simp only [List.countP_cons, List.countP_nil, decide_eq_true_eq]
    split_ifs <;> omega

theorem stepSpans_fst_ge {tbl : List (List Nat × String)} {data : List Nat}
    {i : Nat} : ∀ p ∈ stepSpans tbl data i, i ≤ p.1 := by
  rw [stepSpans]
  cases he : (parseStep tbl data i).1 with
  | cmd c =>
    dsimp only
    split
    · intro p hp
      simp only [List.mem_cons, List.not_mem_nil, or_false] at hp
      rcases hp with rfl | rfl <;> dsimp only <;> omega
    · intro p hp
      simp only [List.mem_cons, List.not_mem_nil, or_false] at hp
      subst hp
      dsimp only
      omega
  | unknown p0 b =>
    dsimp only
    intro p hp
    simp only [List.mem_cons, List.not_mem_nil, or_false] at hp
    subst hp
    dsimp only
    omega
  | skip p0 =>
    dsimp only
    intro p hp
    simp only [List.mem_cons, List.not_mem_nil, or_false] at hp
    subst hp
    dsimp only
    omega

theorem spansAux_fst_ge {tbl : List (List Nat × String)} {data : List Nat} :
    ∀ (f i : Nat), ∀ p ∈ spansAux tbl data f i, i ≤ p.1 := by
  intro f
  induction f with
  | zero => intro i p hp; simp [spansAux] at hp
  | succ f ih =>
    intro i p hp
    rw [spansAux] at hp
    by_cases hi : i < data.length
    · rw [if_pos hi] at hp
      rcases List.mem_append.mp hp with hp | hp
      · exact stepSpans_fst_ge p hp
      · have h1 := ih _ p hp
        have h2 := parseStep_advance tbl data i
        omega
    · rw [if_neg hi] at hp
      simp at hp

theorem spansAux_countP {tbl : List (List Nat × String)} {data : List Nat} :
    ∀ (f i : Nat), data.length - i ≤ f → ∀ j, i ≤ j → j < data.length →
      ((spansAux tbl data f i).countP fun p => decide (p.1 ≤ j ∧ j < p.2))
        = 1 := by
  intro f
  induction f with
  | zero => intro i hf j hij hj; omega
  | succ f ih =>
    intro i hf j hij hj
    have hi : i < data.length := by omega
    have hadv := parseStep_advance tbl data i
    rw [spansAux, if_pos hi, List.countP_append, stepSpans_countP]
    by_cases hcur : j < (parseStep tbl data i).2
    · rw [if_pos ⟨hij, hcur⟩]
      have htail :
          ((spansAux tbl data f (parseStep tbl data i).2).countP
            fun p => decide (p.1 ≤ j ∧ j < p.2)) = 0 := by
        rw [List.countP_eq_zero]
        intro p hp
        have := spansAux_fst_ge f (parseStep tbl data i).2 p hp
        simp only [decide_eq_true_eq]
        omega
      rw [htail]
    · rw [if_neg (by omega)]
      rw [ih (parseStep tbl data i).2 (by omega) j (by omega) hj]

/-! The bounds-checked run never fails and agrees with the plain run. -/

theorem getD_some {l : List Nat} {n : Nat} (h : n < l.length) :
    l[n]? = some (l.getD n 0) := by
  rw [List.getD_eq_getElem?_getD, List.getElem?_eq_getElem h]
  rfl

theorem paramLenE_eq (data : List Nat) (i L : Nat) :
    paramLenE data i L = some (paramLen data i L) := by
  rw [paramLenE, paramLen]
  by_cases hg : 3 ≤ L ∧ i + L + 1 < data.length
  · rw [if_pos hg, if_pos hg, getD_some (show i + L < data.length by omega),
      getD_some hg.2]
  · rw [if_neg hg, if_neg hg]

theorem parseStepE_eq (tbl : List (List Nat × String)) (data : List Nat)
    (i : Nat) : parseStepE tbl data i = some (parseStep tbl data i) := by
  rw [parseStepE, parseStep]
  by_cases he : byteSlice data i 1 = [ESC]
  · rw [if_pos he, if_pos he]
    cases ht : tryLens tbl data i [5, 4, 3, 2] with
    | some p =>
      obtain ⟨L, d⟩ := p
      dsimp only
      rw [paramLenE_eq]
    | none =>
      dsimp only
      by_cases hb : i + 2 ≤ data.length
      · rw [if_pos hb, if_pos hb]
        cases hl : cmdLookup tbl (byteSlice data i 2) <;> rfl
      · rw [if_neg hb, if_neg hb]
  · rw [if_neg he, if_neg he]

theorem parseAuxE_eq (tbl : List (List Nat × String)) (data : List Nat) :
    ∀ (f i : Nat), parseAuxE tbl data f i = some (parseAux tbl data f i) := by
  intro f
  induction f with
  | zero => intro i; rfl
  | succ f ih =>
    intro i
    rw [parseAuxE, parseAux]
    by_cases hi : i < data.length
    · rw [if_pos hi, if_pos hi, parseStepE_eq]
      dsimp only
      rw [ih (parseStep tbl data i).2]
    · rw [if_neg hi, if_neg hi]

/-! The aggregator as a sum of independent per-buffer contributions. -/

theorem applyEvent_cf (st : AggState) (e : StepEvent) (k : List Nat) :
    (applyEvent st e).commands_found k = st.commands_found k +
      (if (match e with
        | StepEvent.cmd c => decide (c.command = k)
        | _ => false) = true then 1 else 0) := by
  cases e with
  | cmd c =>
    dsimp only [applyEvent]
    by_cases hk : k = c.command
    · subst hk
      simp
    · rw [if_neg hk]
      have hkk : ¬ (c.command = k) := fun hx => hk hx.symm
      simp [hkk]
  | unknown p b => simp [applyEvent]
  | skip p => simp [applyEvent]

theorem applyEvent_uk (st : AggState) (e : StepEvent) (k : List Nat) :
    (applyEvent st e).unknown_commands k =
      (st.unknown_commands k || (match e with
        | StepEvent.unknown _ b => decide (b = k)
        | _ => false)) := by
  cases e with
  | cmd c => simp [applyEvent]
  | unknown p b =>
    dsimp only [applyEvent]
    by_cases hk : k = b
    · subst hk
      simp
    · have hkk : ¬ (b = k) := fun hx => hk hx.symm
      simp [hk, hkk]
  | skip p => simp [applyEvent]

theorem foldl_applyEvent_cf (evs : List StepEvent) :
    ∀ (st : AggState) (k : List Nat),
      (evs.foldl applyEvent st).commands_found k =
        st.commands_found k + (evs.countP fun e =>
          match e with
          | StepEvent.cmd c => decide (c.command = k)
          | _ => false) := by
  induction evs with
  | nil => intro st k; simp
  | cons e t ih =>
    intro st k
    rw [List.foldl_cons, List.countP_cons, ih, applyEvent_cf]
    omega

theorem foldl_applyEvent_uk (evs : List StepEvent) :
    ∀ (st : AggState) (k : List Nat),
      (evs.foldl applyEvent st).unknown_commands k =
        (st.unknown_commands k || (evs.any fun e =>
          match e with
          | StepEvent.unknown _ b => decide (b = k)
          | _ => false)) := by
  induction evs with
  | nil => intro st k; simp
  | cons e t ih =>
    intro st k
    rw [List.foldl_cons, List.any_cons, ih, applyEvent_uk, Bool.or_assoc]

theorem foldl_feedBuf_cf (tbl : List (List Nat × String))
    (bufs : List (List Nat)) :
    ∀ (st : AggState) (k : List Nat),
      (bufs.foldl (feedBuf tbl) st).commands_found k =
        st.commands_found k +
          (bufs.map fun b => bufCount tbl b k).sum := by
  induction bufs with
  | nil => intro st k; simp
  | cons b t ih =>
    intro st k
    rw [List.foldl_cons, List.map_cons, List.sum_cons, ih]
    rw [feedBuf, foldl_applyEvent_cf]
    rw [bufCount]
    omega

theorem foldl_feedBuf_uk (tbl : List (List Nat × String))
    (bufs : List (List Nat)) :
    ∀ (st : AggState) (k : List Nat),
      (bufs.foldl (feedBuf tbl) st).unknown_commands k =
        (st.unknown_commands k ||
          (bufs.any fun b => bufUnknown tbl b k)) := by
  induction bufs with
  | nil => intro st k; simp
  | cons b t ih =>
    intro st k
    rw [List.foldl_cons, List.any_cons, ih]
    rw [feedBuf, foldl_applyEvent_uk]
    rw [bufUnknown, Bool.or_assoc]

theorem perm_any_eq {bufs bufs' : List (List Nat)}
    (h : bufs.Perm bufs') (f : List Nat → Bool) :
    bufs.any f = bufs'.any f := by
  by_cases hx : bufs.any f = true
  · rw [hx]
    symm
    rw [List.any_eq_true] at hx ⊢
    obtain ⟨x, hm, hfx⟩ := hx
    exact ⟨x, h.mem_iff.mp hm, hfx⟩
  · have hx' : ¬ bufs'.any f = true := by
      intro hc
      apply hx
      rw [List.any_eq_true] at hc ⊢
      obtain ⟨x, hm, hfx⟩ := hc
      exact ⟨x, h.mem_iff.mpr hm, hfx⟩
    rw [Bool.not_eq_true] at hx hx'
    rw [hx, hx']

/-- Every decoded command reported by the loop carries the bytes that
actually stand in the buffer at its reported position. -/
theorem parseAux_cmd_slice {tbl : List (List Nat × String)}
    {data : List Nat} :
    ∀ (f i : Nat) (c : DecodedCommand),
      StepEvent.cmd c ∈ parseAux tbl data f i →
      byteSlice data c.position c.command.length = c.command := by
  intro f
  induction f with
  | zero => intro i c h; simp [parseAux] at h
  | succ f ih =>
    intro i c h
    rw [parseAux] at h
    by_cases hi : i < data.length
    · rw [if_pos hi] at h
      rcases List.mem_cons.mp h with h | h
      · obtain ⟨h1, h2, -⟩ := parseStep_cmd_facts h.symm
        rw [h1]
        exact h2.symm
      · exact ih _ c h
    · rw [if_neg hi] at h
      simp at h

/-- C6: for every buffer, every branch of the loop body advances the
cursor by at least 1, and consequently fuel `buffer.length` already
completes the run: any iteration bound of at least `buffer.length`
produces the same events as the actual `parse_packet` loop, so the loop
terminates after at most `buffer.length` top-level iterations. -/
theorem c6_termination (data : List Nat) :
    (∀ i, i < data.length →
      i + 1 ≤ (parseStep ESCP_COMMANDS data i).2) ∧
    (∀ f, data.length ≤ f →
      parseAux ESCP_COMMANDS data f 0 = parseEvents ESCP_COMMANDS data) := by
  constructor
  · intro i _
    exact parseStep_advance ESCP_COMMANDS data i
  · intro f hf
    rw [parseAux_fuel f 0 (by omega), parseEvents_eq_evFrom]

/-- Witness for `c6_termination` at a concrete buffer. -/
theorem c6_termination_witness :
    0 + 1 ≤ (parseStep ESCP_COMMANDS [27, 64] 0).2 ∧
    parseAux ESCP_COMMANDS [27, 64] 5 0 = parseEvents ESCP_COMMANDS [27, 64] :=
  ⟨(c6_termination [27, 64]).1 0 (by decide),
   (c6_termination [27, 64]).2 5 (by decide)⟩

/-- C5: the matched-command spans, parameter-region spans and skipped
single-byte spans produced by one `parse_packet` call cover every byte
index of the input buffer exactly once — no gaps and no overlaps. -/
theorem c5_coverage (data : List Nat) (j : Nat) (hj : j < data.length) :
    ((spans ESCP_COMMANDS data).countP
      fun p => decide (p.1 ≤ j ∧ j < p.2)) = 1 := by
  rw [spans]
  exact spansAux_countP data.length 0 (by omega) j (by omega) hj

/-- Witness for `c5_coverage` at a concrete buffer and index. -/
theorem c5_coverage_witness :
    ((spans ESCP_COMMANDS [27, 64, 0]).countP
      fun p => decide (p.1 ≤ 2 ∧ 2 < p.2)) = 1 :=
  c5_coverage [27, 64, 0] 2 (by decide)

/-- C8: `parse_packet` never raises: the bounds-checked run, in which
every raw subscript returns `none` when out of range, succeeds on every
buffer and returns exactly the events and commands of the plain run —
truncated parameter regions and unrecognized sequences are resolved
through the no-parameter and unknown fallback paths. -/
theorem c8_no_exception (data : List Nat) :
    parseEventsE ESCP_COMMANDS data = some (parseEvents ESCP_COMMANDS data) ∧
    parse_packetE ESCP_COMMANDS data =
      some (parse_packet ESCP_COMMANDS data) := by
  have h := parseAuxE_eq ESCP_COMMANDS data data.length 0
  refine ⟨h, ?_⟩
  rw [parse_packetE, parseEventsE, h]
  rfl

/-- C10: the commands of one `parse_packet` call are listed in strictly
increasing positions, and each reported command equals the slice of the
input buffer of the matched length at its reported offset. -/
theorem c10_order_and_fidelity (data : List Nat) :
    ((parse_packet ESCP_COMMANDS data).map DecodedCommand.position).Pairwise
        (fun a b => a < b) ∧
    ∀ c ∈ parse_packet ESCP_COMMANDS data,
      byteSlice data c.position c.command.length = c.command := by
  constructor
  · have hpw := @parseAux_pairwise ESCP_COMMANDS data data.length 0
    exact List.Pairwise.sublist
      (cmdsOf_pos_sublist (parseEvents ESCP_COMMANDS data))
      (List.pairwise_map.mpr hpw)
  · intro c hc
    exact parseAux_cmd_slice data.length 0 c (mem_cmdsOf.mp hc)

/-- Witness for `c10_order_and_fidelity` at a concrete buffer. -/
theorem c10_order_and_fidelity_witness :
    byteSlice [27, 64] 0 2 = [27, 64] :=
  (c10_order_and_fidelity [27, 64]).2
    ⟨0, [27, 64], "Initialize printer", []⟩ (by decide)

/-- C4 counterexample: in the buffer [27, 40, 71, 0, 1] both bytes
following the matched 3-byte command (the two length bytes 0 and 1) lie
within the buffer, and their little-endian value is 256, yet the
parameter length computed by the parser is 0, because the high byte is
only counted when a further byte exists at the next index. -/
theorem c4_counterexample :
    0 + 3 + 1 < ([27, 40, 71, 0, 1] : List Nat).length ∧
    paramLen [27, 40, 71, 0, 1] 0 3 = 0 ∧
    ([27, 40, 71, 0, 1] : List Nat).getD (0 + 3) 0 +
      ([27, 40, 71, 0, 1] : List Nat).getD (0 + 3 + 1) 0 * 256 = 256 ∧
    (0 : Nat) ≠ 256 := by decide

/-- C4 amended: for a compound match of length `L ≥ 3` at cursor `i`,
the parameter length equals the little-endian value of the two bytes
after the match only when a byte also exists at index `i + L + 2`; when
the two length bytes are the final two bytes of the buffer the high byte
is ignored and the parameter length is the low byte alone; with fewer
than two bytes after the match it is 0. -/
theorem c4_param_length (data : List Nat) (i L : Nat) (hL : 3 ≤ L) :
    (i + L + 2 < data.length →
      paramLen data i L =
        data.getD (i + L) 0 + data.getD (i + L + 1) 0 * 256) ∧
    (i + L + 2 = data.length →
      paramLen data i L = data.getD (i + L) 0) ∧
    (data.length ≤ i + L + 1 → paramLen data i L = 0) := by
  refine ⟨?_, ?_, ?_⟩ <;> intro h <;> rw [paramLen]
  · rw [if_pos ⟨hL, by omega⟩, if_pos h]
  · rw [if_pos ⟨hL, by omega⟩, if_neg (by omega), Nat.add_zero]
  · rw [if_neg (by omega)]

/-- Witness for `c4_param_length` at concrete buffers. -/
theorem c4_param_length_witness :
    paramLen [27, 40, 71, 5, 1, 9] 0 3 =
      ([27, 40, 71, 5, 1, 9] : List Nat).getD (0 + 3) 0 +
        ([27, 40, 71, 5, 1, 9] : List Nat).getD (0 + 3 + 1) 0 * 256 ∧
    paramLen [27, 40, 71, 0, 1] 0 3 =
      ([27, 40, 71, 0, 1] : List Nat).getD (0 + 3) 0 ∧
    paramLen [27, 40, 71] 0 3 = 0 :=
  ⟨(c4_param_length [27, 40, 71, 5, 1, 9] 0 3 (by decide)).1 (by decide),
   (c4_param_length [27, 40, 71, 0, 1] 0 3 (by decide)).2.1 (by decide),
   (c4_param_length [27, 40, 71] 0 3 (by decide)).2.2 (by decide)⟩

/-- C2: at an escape byte the matcher tries slice lengths 5, 4, 3, 2 in
strict descending order and the first table hit wins — any strictly
longer in-bounds slice than the winner misses the table; in particular,
for a table with a 2-byte entry E2 and a 5-byte entry E5 beginning with
E2's bytes, parsing a buffer holding exactly E5's bytes yields exactly
one DecodedCommand, matching E5 and never E2. -/
theorem c2_longest_match :
    (∀ (tbl : List (List Nat × String)) (data : List Nat) (i L : Nat)
      (d : String), tryLens tbl data i [5, 4, 3, 2] = some (L, d) →
      ∀ L' ∈ [5, 4, 3, 2], L < L' → i + L' ≤ data.length →
        cmdLookup tbl (byteSlice data i L') = none) ∧
    (∀ (E2 E5 : List Nat) (d2 d5 : String),
      E2.length = 2 → E5.length = 5 → E5.take 2 = E2 →
      byteSlice E5 0 1 = [ESC] →
      parse_packet [(E2, d2), (E5, d5)] E5 = [⟨0, E5, d5, []⟩] ∧
      ∀ c ∈ parse_packet [(E2, d2), (E5, d5)] E5, c.command ≠ E2) := by
  constructor
  · intro tbl data i L d h L' hL' hlt hb
    exact tryLens_first_wins h (by decide) L' hL' hlt hb
  · intro E2 E5 d2 d5 h2 h5 hpre hesc
    have hne : E2 ≠ E5 := by
      intro hx
      rw [hx, h5] at h2
      omega
    have hslice5 : byteSlice E5 0 5 = E5 := by
      rw [byteSlice, List.drop_zero, ← h5, List.take_length]
    have hlook : cmdLookup [(E2, d2), (E5, d5)] E5 = some d5 := by
      rw [cmdLookup, if_neg hne, cmdLookup, if_pos rfl]
    have htry : tryLens [(E2, d2), (E5, d5)] E5 0 [5, 4, 3, 2] =
        some (5, d5) := by
      rw [tryLens, if_pos (by omega), hslice5, hlook]
    have hpl : paramLen E5 0 5 = 0 := by
      rw [paramLen, if_neg (by omega)]
    have hstep : parseStep [(E2, d2), (E5, d5)] E5 0 =
        (StepEvent.cmd ⟨0, E5, d5, []⟩, 5) := by
      rw [parseStep, if_pos hesc, htry]
      dsimp only
      rw [hpl]
      simp [hslice5]
    have hev : parseEvents [(E2, d2), (E5, d5)] E5 =
        [StepEvent.cmd ⟨0, E5, d5, []⟩] := by
      rw [parseEvents_eq_evFrom, evFrom_unfold (by omega), hstep]
      dsimp only
      rw [evFrom_nil (by omega)]
    have hpp : parse_packet [(E2, d2), (E5, d5)] E5 =
        [⟨0, E5, d5, []⟩] := by
      rw [parse_packet, hev]
      rfl
    refine ⟨hpp, ?_⟩
    intro c hc
    rw [hpp] at hc
    rcases List.mem_singleton.mp hc with rfl
    dsimp only
    intro hx
    rw [hx, h2] at h5
    omega

/-- Witness for `c2_longest_match`: the descending-order conjunct at a
buffer whose length-5 slice misses the table while length 2 hits, and
the E2/E5 conjunct at a concrete two-entry table. -/
theorem c2_longest_match_witness :
    cmdLookup ESCP_COMMANDS (byteSlice [27, 64, 0, 0, 0] 0 5) = none ∧
    parse_packet [([27, 64], "a"), ([27, 64, 0, 0, 0], "b")]
      [27, 64, 0, 0, 0] = [⟨0, [27, 64, 0, 0, 0], "b", []⟩] :=
  ⟨c2_longest_match.1 ESCP_COMMANDS [27, 64, 0, 0, 0] 0 2
      "Initialize printer" (by decide) 5 (by decide) (by decide) (by decide),
   (c2_longest_match.2 [27, 64] [27, 64, 0, 0, 0] "a" "b"
      (by decide) (by decide) (by decide) (by decide)).1⟩

/-- C3 counterexample: in [27, 40, 71, 5, 0, 27, 64] the compound match
at offset 0 declares 5 parameter bytes but only 2 remain, the command is
recorded with empty parameters — yet the cursor advances to 10 (past the
declared region and beyond the buffer end), not to 3 (just past the
matched command), so the trailing known command at offset 5 is never
parsed. -/
theorem c3_counterexample :
    (parseStep ESCP_COMMANDS [27, 40, 71, 5, 0, 27, 64] 0).1 =
      StepEvent.cmd ⟨0, [27, 40, 71], "Select graphics mode", []⟩ ∧
    paramLen [27, 40, 71, 5, 0, 27, 64] 0 3 = 5 ∧
    (parseStep ESCP_COMMANDS [27, 40, 71, 5, 0, 27, 64] 0).2 = 10 ∧
    (10 : Nat) ≠ 0 + 3 ∧
    parse_packet ESCP_COMMANDS [27, 40, 71, 5, 0, 27, 64] =
      [⟨0, [27, 40, 71], "Select graphics mode", []⟩] := by decide

/-- C3 amended: on a compound match whose declared parameter length is
positive but whose parameter region does not fit in the buffer, the
command is recorded with empty parameters and the cursor advances by
the matched length plus the declared parameter length plus 2 — past the
declared region, possibly beyond the buffer end — while a declared
parameter length of 0 advances the cursor only past the matched
bytes. -/
theorem c3_truncated_params (tbl : List (List Nat × String))
    (data : List Nat) (i L : Nat) (d : String)
    (hesc : byteSlice data i 1 = [ESC])
    (ht : tryLens tbl data i [5, 4, 3, 2] = some (L, d)) :
    (0 < paramLen data i L → data.length < i + L + 2 + paramLen data i L →
      (parseStep tbl data i).1 =
        StepEvent.cmd ⟨i, byteSlice data i L, d, []⟩ ∧
      (parseStep tbl data i).2 = i + L + paramLen data i L + 2) ∧
    (paramLen data i L = 0 →
      (parseStep tbl data i).1 =
        StepEvent.cmd ⟨i, byteSlice data i L, d, []⟩ ∧
      (parseStep tbl data i).2 = i + L) := by
  rw [parseStep, if_pos hesc, ht]
  dsimp only
  constructor
  · intro hpos hover
    rw [if_neg (by omega), if_pos hpos]
    exact ⟨rfl, by omega⟩
  · intro h0
    rw [h0]
    simp

/-- Witness for `c3_truncated_params`: the truncated case on the
counterexample buffer and the zero-length case on a bare command. -/
theorem c3_truncated_params_witness :
    (parseStep ESCP_COMMANDS [27, 40, 71, 5, 0, 27, 64] 0).2 =
      0 + 3 + 5 + 2 ∧
    (parseStep ESCP_COMMANDS [27, 40, 71] 0).2 = 0 + 3 :=
  ⟨((c3_truncated_params ESCP_COMMANDS [27, 40, 71, 5, 0, 27, 64] 0 3
      "Select graphics mode" (by decide) (by decide)).1
      (by decide) (by decide)).2,
   ((c3_truncated_params ESCP_COMMANDS [27, 40, 71] 0 3
      "Select graphics mode" (by decide) (by decide)).2 (by decide)).2⟩

/-- C7: in the buffer [ESC, 0xFF, ESC, c] with [ESC, c] a known 2-byte
command, the unmatched pair at offset 0 is recorded as the single
unknown sequence, the cursor advances by exactly 1 from the unknown
path, and the only decoded command sits at offset 2 — matching
re-triggers only at the next escape byte, never at offset 1. -/
theorem c7_resync (c : Nat) (d : String)
    (h : cmdLookup ESCP_COMMANDS [27, c] = some d) :
    unknownRecords ESCP_COMMANDS [27, 255, 27, c] = [(0, [27, 255])] ∧
    parse_packet ESCP_COMMANDS [27, 255, 27, c] = [⟨2, [27, c], d, []⟩] ∧
    (parseStep ESCP_COMMANDS [27, 255, 27, c] 0).2 = 1 := by
  have hl4 : cmdLookup ESCP_COMMANDS [27, 255, 27, c] = none := by
    simp [cmdLookup, ESCP_COMMANDS]
  have hl3 : cmdLookup ESCP_COMMANDS [27, 255, 27] = none := by decide
  have hl2 : cmdLookup ESCP_COMMANDS [27, 255] = none := by decide
  have hlen : ([27, 255, 27, c] : List Nat).length = 4 := rfl
  have htry0 : tryLens ESCP_COMMANDS [27, 255, 27, c] 0 [5, 4, 3, 2] =
      none := by
    rw [tryLens, if_neg (by omega)]
    rw [tryLens, if_pos (by omega),
      show byteSlice [27, 255, 27, c] 0 4 = [27, 255, 27, c] from rfl, hl4]
    rw [tryLens, if_pos (by omega),
      show byteSlice [27, 255, 27, c] 0 3 = [27, 255, 27] from rfl, hl3]
    rw [tryLens, if_pos (by omega),
      show byteSlice [27, 255, 27, c] 0 2 = [27, 255] from rfl, hl2]
    rfl
  have hstep0 : parseStep ESCP_COMMANDS [27, 255, 27, c] 0 =
      (StepEvent.unknown 0 [27, 255], 1) := by
    rw [parseStep,
      if_pos (show byteSlice [27, 255, 27, c] 0 1 = [ESC] from rfl), htry0]
    dsimp only
    rw [if_pos (by omega),
      show byteSlice [27, 255, 27, c] 0 2 = [27, 255] from rfl, hl2]
  have hstep1 : parseStep ESCP_COMMANDS [27, 255, 27, c] 1 =
      (StepEvent.skip 1, 2) := by
    rw [parseStep,
      if_neg (show ¬byteSlice [27, 255, 27, c] 1 1 = [ESC] by
        simp [byteSlice, ESC])]
  have htry2 : tryLens ESCP_COMMANDS [27, 255, 27, c] 2 [5, 4, 3, 2] =
      some (2, d) := by
    rw [tryLens, if_neg (by omega), tryLens, if_neg (by omega),
      tryLens, if_neg (by omega), tryLens, if_pos (by omega),
      show byteSlice [27, 255, 27, c] 2 2 = [27, c] from rfl, h]
  have hstep2 : parseStep ESCP_COMMANDS [27, 255, 27, c] 2 =
      (StepEvent.cmd ⟨2, [27, c], d, []⟩, 4) := by
    rw [parseStep,
      if_pos (show byteSlice [27, 255, 27, c] 2 1 = [ESC] from rfl), htry2]
    dsimp only
    rw [show paramLen [27, 255, 27, c] 2 2 = 0 by rw [paramLen]; simp]
    simp [byteSlice]
  have hev : parseEvents ESCP_COMMANDS [27, 255, 27, c] =
      [StepEvent.unknown 0 [27, 255], StepEvent.skip 1,
        StepEvent.cmd ⟨2, [27, c], d, []⟩] := by
    rw [parseEvents_eq_evFrom, evFrom_unfold (by omega), hstep0]
    dsimp only
    rw [evFrom_unfold (by omega), hstep1]
    dsimp only
    rw [evFrom_unfold (by omega), hstep2]
    dsimp only
    rw [evFrom_nil (by omega)]
  refine ⟨?_, ?_, ?_⟩
  · rw [unknownRecords, hev]
    rfl
  · rw [parse_packet, hev]
    rfl
  · rw [hstep0]

/-- Witness for `c7_resync` at the 2-byte initialize command. -/
theorem c7_resync_witness :
    parse_packet ESCP_COMMANDS [27, 255, 27, 64] =
      [⟨2, [27, 64], "Initialize printer", []⟩] :=
  (c7_resync 64 "Initialize printer" (by decide)).2.1

/-- C1 counterexample: the buffer [27, 40, 71, 0, 0] holds the 3-byte
table command [27, 40, 71] at offset 0 followed by two length bytes
encoding N = 0 and (vacuously) at least 0 payload bytes; the command is
recorded with empty parameters, but the cursor after the command is 3 —
only past the matched bytes — not offset + len(P) + 2 + N = 5. -/
theorem c1_counterexample :
    cmdLookup ESCP_COMMANDS [27, 40, 71] = some "Select graphics mode" ∧
    byteSlice [27, 40, 71, 0, 0] 0 3 = [27, 40, 71] ∧
    ([27, 40, 71, 0, 0] : List Nat).getD (0 + 3) 0 +
      ([27, 40, 71, 0, 0] : List Nat).getD (0 + 3 + 1) 0 * 256 = 0 ∧
    (parseStep ESCP_COMMANDS [27, 40, 71, 0, 0] 0).1 =
      StepEvent.cmd ⟨0, [27, 40, 71], "Select graphics mode", []⟩ ∧
    (parseStep ESCP_COMMANDS [27, 40, 71, 0, 0] 0).2 = 3 ∧
    (3 : Nat) ≠ 0 + 3 + 2 + 0 := by decide

/-- C1 amended: for a compound table command `P` (length ≥ 3) reached by
the cursor at offset `i`, followed by two length bytes encoding `N ≥ 1`
in little-endian order and at least `N` payload bytes, the step at `i`
emits one DecodedCommand at offset `i` whose parameters are exactly the
`N` payload bytes, the cursor then stands at `i + len(P) + 2 + N`, the
command appears in the trace, and it is the only decoded command of the
call at that offset (for `N = 0` the cursor instead advances only past
the matched bytes, see the counterexample). -/
theorem c1_compound_extraction (data : List Nat) (i : Nat) (P : List Nat)
    (d : String) (N : Nat)
    (hr : Reaches ESCP_COMMANDS data i)
    (hP : cmdLookup ESCP_COMMANDS P = some d)
    (hlen : 3 ≤ P.length)
    (hsl : byteSlice data i P.length = P)
    (hN : data.getD (i + P.length) 0 +
      data.getD (i + P.length + 1) 0 * 256 = N)
    (hpos : 1 ≤ N)
    (hfit : i + P.length + 2 + N ≤ data.length) :
    (parseStep ESCP_COMMANDS data i).1 =
      StepEvent.cmd ⟨i, P, d, byteSlice data (i + P.length + 2) N⟩ ∧
    (byteSlice data (i + P.length + 2) N).length = N ∧
    (parseStep ESCP_COMMANDS data i).2 = i + P.length + 2 + N ∧
    StepEvent.cmd ⟨i, P, d, byteSlice data (i + P.length + 2) N⟩ ∈
      parseEvents ESCP_COMMANDS data ∧
    ∀ c ∈ parse_packet ESCP_COMMANDS data, c.position = i →
      c = ⟨i, P, d, byteSlice data (i + P.length + 2) N⟩ := by
  have hP3 : P.length = 3 := by
    have := cmdLookup_escp_length hP
    omega
  rw [hP3] at hsl hN hfit ⊢
  have hesc : byteSlice data i 1 = [ESC] := by
    have hk := (escp_key_facts (cmdLookup_mem hP)).2
    rw [← @byteSlice_take data i 1 3 (by omega), hsl, hk]
  have hb3 : i + 3 ≤ data.length := by omega
  have htry : tryLens ESCP_COMMANDS data i [5, 4, 3, 2] = some (3, d) := by
    apply tryLens_escp_hit3 hb3
    rw [hsl]
    exact hP
  have hpl : paramLen data i 3 = N := by
    rw [paramLen, if_pos ⟨by omega, by omega⟩, if_pos (by omega)]
    exact hN
  have hstep : parseStep ESCP_COMMANDS data i =
      (StepEvent.cmd ⟨i, P, d, byteSlice data (i + 3 + 2) N⟩,
        i + 3 + 2 + N) := by
    rw [parseStep, if_pos hesc, htry]
    dsimp only
    rw [hpl, if_pos ⟨by omega, by omega⟩, if_pos (by omega), hsl,
      Prod.mk.injEq]
    exact ⟨rfl, by omega⟩
  have hi : i < data.length := by omega
  obtain ⟨pre, hpre, hlt⟩ := reaches_split hr
  refine ⟨?_, ?_, ?_, ?_, ?_⟩
  · rw [hstep]
  · exact byteSlice_length (by omega)
  · rw [hstep]
  · rw [hpre, evFrom_unfold hi, hstep]
    exact List.mem_append_right _ (List.mem_cons_self _ _)
  · intro c hc hcpos
    have hc' := mem_cmdsOf.mp hc
    rw [hpre] at hc'
    rcases List.mem_append.mp hc' with hcp | hcv
    · have hlt' := hlt _ hcp
      simp only [eventPos] at hlt'
      omega
    · rw [evFrom_unfold hi, hstep] at hcv
      rcases List.mem_cons.mp hcv with hh | ht2
      · injection hh with hh
      · have hge := evFrom_pos_ge ht2
        simp only [eventPos] at hge
        omega

/-- Witness for `c1_compound_extraction` at a concrete buffer with one
payload byte. -/
theorem c1_compound_extraction_witness :
    (parseStep ESCP_COMMANDS [27, 40, 71, 1, 0, 99] 0).2 = 0 + 3 + 2 + 1 ∧
    StepEvent.cmd ⟨0, [27, 40, 71], "Select graphics mode",
        byteSlice [27, 40, 71, 1, 0, 99] (0 + 3 + 2) 1⟩ ∈
      parseEvents ESCP_COMMANDS [27, 40, 71, 1, 0, 99] := by
  have h := c1_compound_extraction [27, 40, 71, 1, 0, 99] 0 [27, 40, 71]
    "Select graphics mode" 1 Reaches.zero (by decide) (by decide)
    (by decide) (by decide) (by decide) (by decide)
  exact ⟨h.2.2.1, h.2.2.2.1⟩

/-- C9: the aggregate statistics are invariant under permutation of the
input buffers: feeding the same multiset of buffers in any order yields
the same final tally `commands_found` and the same unknown-sequence set
`unknown_commands`. -/
theorem c9_order_invariance (bufs bufs' : List (List Nat))
    (h : bufs.Perm bufs') :
    runAgg ESCP_COMMANDS bufs = runAgg ESCP_COMMANDS bufs' := by
  apply AggState.ext
  · funext k
    rw [runAgg, runAgg, foldl_feedBuf_cf, foldl_feedBuf_cf]
    have hs : (bufs.map fun b => bufCount ESCP_COMMANDS b k).sum =
        (bufs'.map fun b => bufCount ESCP_COMMANDS b k).sum :=
      (h.map _).sum_eq
    rw [hs]
  · funext k
    rw [runAgg, runAgg, foldl_feedBuf_uk, foldl_feedBuf_uk, perm_any_eq h]

/-- Witness for `c9_order_invariance` at a concrete pair of buffer
lists. -/
theorem c9_order_invariance_witness :
    runAgg ESCP_COMMANDS [[27, 64], [27, 255]] =
      runAgg ESCP_COMMANDS [[27, 255], [27, 64]] :=
  c9_order_invariance [[27, 64], [27, 255]] [[27, 255], [27, 64]]
    (by decide)
